import Mathlib

/-!
# TouringMachine_C: a shallow embedding of `Machine.c`

The emulator keeps its state in five globals (`memory`, `PC`, `machineState`,
`flags`, `running`).  Here they are the fields of one record that every
operation takes and returns.  Machine integers are natural numbers; each C
conversion to `uint8_t`, `uint16_t`, `int8_t` or `int16_t` is written out.

The memory image is the 65536-byte block obtained from `malloc`.  Indexing it
outside `0..65535` is undefined behaviour in C; in the embedding such an
access yields `none`, and so does every operation that performs one.
The `printf` of `decodeInstruction` (debug output) is not modelled.  Of the
driver `TouringMachineMain.c` only the length check before `createMachine` is
modelled; its file and terminal I/O is not.
-/

namespace TouringMachine

/-- The memory image: the byte stored at each index of the block. -/
abbrev Memory := Nat → Nat

/-- Number of bytes of the image, `sizeof(uint8_t) * 65536`. -/
def memSize : Nat := 65536

/-- The three addressing modes, `addressingMode_t`. -/
inductive addressingMode where
  | Immediate
  | Relative
  | Absolute
  deriving DecidableEq, Repr

/-- The globals of `Machine.c`. -/
structure Machine where
  memory : Memory
  PC : Nat
  machineState : Nat
  flags : Nat
  running : Bool

/-- The values the C types of the globals can hold: `PC` is a `uint16_t`,
`machineState`, `flags` and every byte of the image are `uint8_t`. -/
def WF (s : Machine) : Prop :=
  s.PC < 65536 ∧ s.machineState < 256 ∧ s.flags < 256 ∧ ∀ a, a < memSize → s.memory a < 256

/-- The read `memory[i]`: defined only inside the block. -/
def readMem (m : Memory) (i : Nat) : Option Nat :=
  if i < memSize then some (m i) else none

/-- The write `memory[i] = v`: defined only inside the block. -/
def writeMem (m : Memory) (i : Nat) (v : Nat) : Option Memory :=
  if i < memSize then some (fun j => if j = i then v else m j) else none

/-- Conversion of an integer to `uint16_t`. -/
def toUInt16 (x : Int) : Nat := (x % 65536).toNat

/-- Conversion of an integer to `uint8_t`. -/
def toUInt8 (x : Int) : Nat := (x % 256).toNat

/-- Conversion of an integer to `int16_t` (two's complement). -/
def toInt16 (x : Int) : Int :=
  if x % 65536 < 32768 then x % 65536 else x % 65536 - 65536

/-- Conversion of an integer to `int8_t` (two's complement). -/
def toInt8 (x : Int) : Int :=
  if x % 256 < 128 then x % 256 else x % 256 - 256

/-- The loop of `createMachine`: `n` iterations remain, the counter is `i`;
each one performs `memory[512+i] = data[i]`. -/
def createLoop (data : List Nat) : Nat → Nat → Memory → Option Memory
  | 0, _, m => some m
  | n + 1, i, m =>
    match data[i]? with
    | none => none
    | some b =>
      match writeMem m (512 + i) b with
      | none => none
      | some m' => createLoop data n (i + 1) m'

/-- `createMachine(data, length)`, with `length` a `uint16_t` value.  `fresh` is
the content of the block that `malloc` returns, which the C standard leaves
indeterminate. -/
def createMachine (fresh : Memory) (data : List Nat) (length : Nat) : Option Machine :=
  match createLoop data length 0 fresh with
  | none => none
  | some m => some { memory := m, PC := 512, flags := 0, machineState := 0, running := true }

/-- `getMemoryAddress(addressingMode)`: the operand address, a `uint16_t`. -/
def getMemoryAddress (s : Machine) : addressingMode → Option Nat
  | .Immediate => some (toUInt16 ((s.PC : Int) + 1))
  | .Relative =>
    match readMem s.memory (s.PC + 1) with
    | none => none
    | some b => some (toUInt16 ((s.PC : Int) + toInt16 (b : Int)))
  | .Absolute =>
    match readMem s.memory (s.PC + 1), readMem s.memory (s.PC + 2) with
    | some lo, some hi => some (toUInt16 ((lo ||| (hi <<< 8) : Nat) : Int))
    | _, _ => none

/-- `halt()`. -/
def halt (s : Machine) : Machine := { s with running := false }

/-- `store(addressingMode)`. -/
def store (s : Machine) (mode : addressingMode) : Option Machine :=
  match getMemoryAddress s mode with
  | none => none
  | some idx =>
    match writeMem s.memory idx s.machineState with
    | none => none
    | some m => some { s with memory := m }

/-- `erase(addressingMode)`. -/
def erase (s : Machine) (mode : addressingMode) : Option Machine :=
  match getMemoryAddress s mode with
  | none => none
  | some idx =>
    match writeMem s.memory idx 0 with
    | none => none
    | some m => some { s with memory := m }

/-- `jump(addressingMode)`. -/
def jump (s : Machine) (mode : addressingMode) : Option Machine :=
  match getMemoryAddress s mode with
  | none => none
  | some a => some { s with PC := a }

/-- `compare(addressingMode)`. -/
def compare (s : Machine) (mode : addressingMode) : Option Machine :=
  match getMemoryAddress s mode with
  | none => none
  | some idx =>
    match readMem s.memory idx with
    | none => none
    | some v =>
      if v = s.machineState then
        some { s with flags := toUInt8 ((s.flags ||| 0x1 : Nat) : Int) }
      else
        some { s with flags := toUInt8 ((s.flags &&& 0xFE : Nat) : Int) }

/-- `branchHelper(branch)`: `PC += branch` with `branch` an `int8_t`. -/
def branchHelper (s : Machine) (branch : Int) : Machine :=
  { s with PC := toUInt16 ((s.PC : Int) + branch) }

/-- `branchIfEqual(addressingMode)`. -/
def branchIfEqual (s : Machine) (mode : addressingMode) : Option Machine :=
  match getMemoryAddress s mode with
  | none => none
  | some a =>
    match readMem s.memory a with
    | none => none
    | some relativeBranch =>
      if s.flags &&& 0x1 = 1 then
        some (branchHelper s (toInt8 (relativeBranch : Int)))
      else
        some { s with PC := toUInt16 ((s.PC : Int) + 2) }

/-- `branchIfNotEqual(addressingMode)`. -/
def branchIfNotEqual (s : Machine) (mode : addressingMode) : Option Machine :=
  match getMemoryAddress s mode with
  | none => none
  | some a =>
    match readMem s.memory a with
    | none => none
    | some relativeBranch =>
      if s.flags &&& 0x1 = 0 then
        some (branchHelper s (toInt8 (relativeBranch : Int)))
      else
        some { s with PC := toUInt16 ((s.PC : Int) + 2) }

/-- `load(addressingMode)`. -/
def load (s : Machine) (mode : addressingMode) : Option Machine :=
  match getMemoryAddress s mode with
  | none => none
  | some idx =>
    match readMem s.memory idx with
    | none => none
    | some v => some { s with machineState := v }

/-- `incrementState()`. -/
def incrementState (s : Machine) : Machine :=
  { s with machineState := toUInt8 ((s.machineState : Int) + 1) }

/-- `decrementState()`. -/
def decrementState (s : Machine) : Machine :=
  { s with machineState := toUInt8 ((s.machineState : Int) - 1) }

/-- `getMachineState()`. -/
def getMachineState (s : Machine) : Nat := s.machineState

/-- The statement `PC += w` that follows an operation in `decodeInstruction`. -/
def advance (w : Nat) (s : Machine) : Machine :=
  { s with PC := toUInt16 ((s.PC : Int) + (w : Int)) }

/-- `decodeInstruction(inst)`: the `switch` over the opcode byte. -/
def decodeInstruction (s : Machine) (inst : Nat) : Option Machine :=
  if inst = 0x1 then some s
  else if inst = 0x2 then some (advance 2 s)
  else if inst = 0x3 then (erase s .Relative).map (advance 2)
  else if inst = 0x4 then (erase s .Absolute).map (advance 3)
  else if inst = 0x5 then jump s .Immediate
  else if inst = 0x6 then jump s .Absolute
  else if inst = 0x7 then (load s .Immediate).map (advance 2)
  else if inst = 0x8 then (load s .Relative).map (advance 2)
  else if inst = 0x9 then (load s .Absolute).map (advance 3)
  else if inst = 0xA then (store s .Relative).map (advance 2)
  else if inst = 0xB then (store s .Absolute).map (advance 3)
  else if inst = 0xC then some (advance 1 (incrementState s))
  else if inst = 0xD then some (advance 1 (decrementState s))
  else if inst = 0xE then (compare s .Immediate).map (advance 2)
  else if inst = 0xF then (compare s .Relative).map (advance 2)
  else if inst = 0x10 then (compare s .Absolute).map (advance 2)
  else if inst = 0x11 then branchIfEqual s .Immediate
  else if inst = 0x12 then branchIfNotEqual s .Immediate
  else if inst = 0xFF then some (halt s)
  else some s

/-- `step()`: one instruction when the machine runs, nothing otherwise. -/
def step (s : Machine) : Option Machine :=
  if s.running then
    match readMem s.memory s.PC with
    | none => none
    | some inst => decodeInstruction s inst
  else some s

/-- The machine after `n` calls of `step()`. -/
def stepN : Nat → Machine → Option Machine
  | 0, s => some s
  | n + 1, s =>
    match step s with
    | none => none
    | some s' => stepN n s'

/-- The function `main` of `TouringMachineMain.c` from the length check to the
call `createMachine(buf, filelen)`: `filelen` is the `long` that `ftell`
reported.  The result is `none` when `main` returns `EXIT_FAILURE`, otherwise
the value its conversion to the `uint16_t` parameter `length` passes on. -/
def mainLength (filelen : Int) : Option Nat :=
  if filelen > 65536 then none else some (toUInt16 filelen)

/-- An image given by finitely many `(index, byte)` cells, zero elsewhere;
used to write down concrete machines. -/
def memOf (cells : List (Nat × Nat)) : Memory :=
  fun a => match cells.lookup a with
    | some v => v
    | none => 0

/-- A concrete machine: image `memOf cells` and the given registers. -/
def machineOf (cells : List (Nat × Nat)) (pc acc fl : Nat) (run : Bool) : Machine :=
  { memory := memOf cells, PC := pc, machineState := acc, flags := fl, running := run }

/-! ## Arithmetic of the conversions -/

theorem toUInt16_lt (x : Int) : toUInt16 x < memSize := by
  simp only [toUInt16, memSize]; omega

theorem toUInt16_add (p w : Nat) : toUInt16 ((p : Int) + (w : Int)) = (p + w) % 65536 := by
  simp only [toUInt16]; omega

theorem toUInt16_succ (p : Nat) : toUInt16 ((p : Int) + 1) = (p + 1) % 65536 := by
  simp only [toUInt16]; omega

theorem toUInt16_add_two (p : Nat) : toUInt16 ((p : Int) + 2) = (p + 2) % 65536 := by
  simp only [toUInt16]; omega

theorem toUInt16_natCast (n : Nat) : toUInt16 (n : Int) = n % 65536 := by
  simp only [toUInt16]; omega

theorem toUInt8_natCast (n : Nat) : toUInt8 (n : Int) = n % 256 := by
  simp only [toUInt8]; omega

/-- A byte converted to `int16_t` keeps its value: no sign extension happens. -/
theorem toInt16_byte (b : Nat) (hb : b < 256) : toInt16 (b : Int) = (b : Int) := by
  simp only [toInt16]; split <;> omega

/-- A byte converted to `int8_t` is its two's-complement reading. -/
theorem toInt8_byte (b : Nat) (hb : b < 256) :
    toInt8 (b : Int) = if b < 128 then (b : Int) else (b : Int) - 256 := by
  simp only [toInt8]; split <;> split <;> omega

theorem or_shiftLeft_eight (lo hi : Nat) (h : lo < 256) : lo ||| (hi <<< 8) = lo + 256 * hi := by
  have := Nat.mul_add_lt_is_or (i := 8) (b := lo) (by simpa using h) hi
  rw [Nat.or_comm, Nat.shiftLeft_eq, Nat.mul_comm hi, ← this]; omega

theorem or_one_and_mask (f : Nat) : (f ||| 1) &&& 254 = f &&& 254 := by
  rw [Nat.and_distrib_right]; simp

theorem or_one_and_one (f : Nat) : (f ||| 1) &&& 1 = 1 := by
  rw [Nat.and_distrib_right]
  rcases Nat.mod_two_eq_zero_or_one f with h | h <;> simp [h]

theorem and_mask_and_one (f : Nat) : (f &&& 254) &&& 1 = 0 := by
  rw [Nat.and_assoc]; simp

theorem and_mask_and_mask (f : Nat) : (f &&& 254) &&& 254 = f &&& 254 := by
  rw [Nat.and_assoc]; simp

theorem or_one_lt (f : Nat) (h : f < 256) : f ||| 1 < 256 :=
  Nat.or_lt_two_pow (n := 8) h (by decide)

theorem and_mask_lt (f : Nat) (h : f < 256) : f &&& 254 < 256 :=
  lt_of_le_of_lt Nat.and_le_left h

/-! ## Reads and writes inside the image -/

theorem readMem_of_lt (m : Memory) (i : Nat) (h : i < memSize) : readMem m i = some (m i) := by
  simp [readMem, h]

theorem readMem_of_ge (m : Memory) (i : Nat) (h : memSize ≤ i) : readMem m i = none := by
  simp [readMem, Nat.not_lt.mpr h]

theorem writeMem_of_lt (m : Memory) (i v : Nat) (h : i < memSize) :
    writeMem m i v = some (fun j => if j = i then v else m j) := by
  simp [writeMem, h]

/-! ## The operand address -/

theorem getMemoryAddress_immediate (s : Machine) :
    getMemoryAddress s .Immediate = some ((s.PC + 1) % 65536) := by
  simp [getMemoryAddress, toUInt16_succ]

/-- Relative mode adds the operand byte to `PC` as an unsigned value. -/
theorem getMemoryAddress_relative (s : Machine) (h : s.PC + 1 < memSize)
    (hb : s.memory (s.PC + 1) < 256) :
    getMemoryAddress s .Relative = some ((s.PC + s.memory (s.PC + 1)) % 65536) := by
  simp [getMemoryAddress, readMem_of_lt _ _ h, toInt16_byte _ hb, toUInt16_add]

theorem getMemoryAddress_absolute (s : Machine) (h : s.PC + 2 < memSize)
    (hlo : s.memory (s.PC + 1) < 256) (hhi : s.memory (s.PC + 2) < 256) :
    getMemoryAddress s .Absolute = some (s.memory (s.PC + 1) + 256 * s.memory (s.PC + 2)) := by
  have h1 : s.PC + 1 < memSize := by omega
  simp only [getMemoryAddress, readMem_of_lt _ _ h, readMem_of_lt _ _ h1,
    or_shiftLeft_eight _ _ hlo, toUInt16_natCast]
  congr 1
  omega

theorem getMemoryAddress_lt (s : Machine) (mode : addressingMode) (a : Nat)
    (h : getMemoryAddress s mode = some a) : a < memSize := by
  cases mode with
  | Immediate =>
    simp only [getMemoryAddress, Option.some.injEq] at h
    exact h ▸ toUInt16_lt _
  | Relative =>
    simp only [getMemoryAddress] at h
    split at h
    · exact absurd h (by simp)
    · exact (Option.some.inj h) ▸ toUInt16_lt _
  | Absolute =>
    simp only [getMemoryAddress] at h
    split at h
    · exact (Option.some.inj h) ▸ toUInt16_lt _
    · exact absurd h (by simp)

/-- The operand bytes of Relative and Absolute mode are inside the image when
`PC` is far enough from its top; Immediate mode reads nothing. -/
theorem getMemoryAddress_defined (s : Machine) (mode : addressingMode)
    (hrel : mode = .Relative → s.PC + 1 < memSize)
    (habs : mode = .Absolute → s.PC + 2 < memSize) :
    ∃ a, getMemoryAddress s mode = some a := by
  cases mode with
  | Immediate => exact ⟨_, rfl⟩
  | Relative => simp [getMemoryAddress, readMem_of_lt _ _ (hrel rfl)]
  | Absolute =>
    have h2 := habs rfl
    have h1 : s.PC + 1 < memSize := by omega
    simp [getMemoryAddress, readMem_of_lt _ _ h2, readMem_of_lt _ _ h1]

/-! ## One step, opcode by opcode -/

theorem step_running (s : Machine) (hrun : s.running = true) (hpc : s.PC < memSize) :
    step s = decodeInstruction s (s.memory s.PC) := by
  simp [step, hrun, readMem_of_lt _ _ hpc]

theorem step_halted (s : Machine) (h : s.running = false) : step s = some s := by
  simp [step, h]

theorem stepN_halted (n : Nat) (s : Machine) (h : s.running = false) : stepN n s = some s := by
  induction n with
  | zero => rfl
  | succ n ih => simp [stepN, step_halted s h, ih]

/-! ## The operations in terms of the operand address

The address that `getMemoryAddress` returns is a `uint16_t`, so the access an
operation makes through it is always inside the image. -/

theorem erase_eq (s : Machine) (mode : addressingMode) :
    erase s mode = (getMemoryAddress s mode).map
      (fun a => { s with memory := fun j => if j = a then 0 else s.memory j }) := by
  cases h : getMemoryAddress s mode with
  | none => simp [erase, h]
  | some a => simp [erase, h, writeMem_of_lt _ _ _ (getMemoryAddress_lt s mode a h)]

theorem store_eq (s : Machine) (mode : addressingMode) :
    store s mode = (getMemoryAddress s mode).map
      (fun a => { s with memory := fun j => if j = a then s.machineState else s.memory j }) := by
  cases h : getMemoryAddress s mode with
  | none => simp [store, h]
  | some a => simp [store, h, writeMem_of_lt _ _ _ (getMemoryAddress_lt s mode a h)]

theorem load_eq (s : Machine) (mode : addressingMode) :
    load s mode = (getMemoryAddress s mode).map
      (fun a => { s with machineState := s.memory a }) := by
  cases h : getMemoryAddress s mode with
  | none => simp [load, h]
  | some a => simp [load, h, readMem_of_lt _ _ (getMemoryAddress_lt s mode a h)]

theorem compare_eq (s : Machine) (mode : addressingMode) :
    compare s mode = (getMemoryAddress s mode).map
      (fun a => if s.memory a = s.machineState
        then { s with flags := (s.flags ||| 1) % 256 }
        else { s with flags := (s.flags &&& 254) % 256 }) := by
  cases h : getMemoryAddress s mode with
  | none => simp [compare, h]
  | some a =>
    simp only [compare, h, readMem_of_lt _ _ (getMemoryAddress_lt s mode a h), toUInt8_natCast,
      Option.map_some']
    split <;> rfl

theorem branchIfEqual_immediate (s : Machine) :
    branchIfEqual s .Immediate =
      some (if s.flags &&& 1 = 1
        then { s with PC := toUInt16 ((s.PC : Int) + toInt8 (s.memory ((s.PC + 1) % 65536) : Int)) }
        else { s with PC := (s.PC + 2) % 65536 }) := by
  have h : (s.PC + 1) % 65536 < memSize := by simp only [memSize]; omega
  simp only [branchIfEqual, getMemoryAddress_immediate, readMem_of_lt _ _ h, branchHelper,
    toUInt16_add_two]
  split <;> rfl

theorem branchIfNotEqual_immediate (s : Machine) :
    branchIfNotEqual s .Immediate =
      some (if s.flags &&& 1 = 0
        then { s with PC := toUInt16 ((s.PC : Int) + toInt8 (s.memory ((s.PC + 1) % 65536) : Int)) }
        else { s with PC := (s.PC + 2) % 65536 }) := by
  have h : (s.PC + 1) % 65536 < memSize := by simp only [memSize]; omega
  simp only [branchIfNotEqual, getMemoryAddress_immediate, readMem_of_lt _ _ h, branchHelper,
    toUInt16_add_two]
  split <;> rfl

theorem advance_PC (w : Nat) (s : Machine) : (advance w s).PC = (s.PC + w) % 65536 := by
  simp [advance, toUInt16_add]

/-! ## The opcode dispatch -/

/-- An opcode outside the table falls through the `switch`. -/
theorem decodeInstruction_unknown (s : Machine) (inst : Nat)
    (h : inst = 0 ∨ (0x13 ≤ inst ∧ inst ≠ 0xFF)) : decodeInstruction s inst = some s := by
  have h1 : inst ≠ 0x1 := by omega
  have h2 : inst ≠ 0x2 := by omega
  have h3 : inst ≠ 0x3 := by omega
  have h4 : inst ≠ 0x4 := by omega
  have h5 : inst ≠ 0x5 := by omega
  have h6 : inst ≠ 0x6 := by omega
  have h7 : inst ≠ 0x7 := by omega
  have h8 : inst ≠ 0x8 := by omega
  have h9 : inst ≠ 0x9 := by omega
  have h10 : inst ≠ 0xA := by omega
  have h11 : inst ≠ 0xB := by omega
  have h12 : inst ≠ 0xC := by omega
  have h13 : inst ≠ 0xD := by omega
  have h14 : inst ≠ 0xE := by omega
  have h15 : inst ≠ 0xF := by omega
  have h16 : inst ≠ 0x10 := by omega
  have h17 : inst ≠ 0x11 := by omega
  have h18 : inst ≠ 0x12 := by omega
  have h19 : inst ≠ 0xFF := by omega
  simp only [decodeInstruction, if_neg h1, if_neg h2, if_neg h3, if_neg h4, if_neg h5, if_neg h6,
    if_neg h7, if_neg h8, if_neg h9, if_neg h10, if_neg h11, if_neg h12, if_neg h13, if_neg h14,
    if_neg h15, if_neg h16, if_neg h17, if_neg h18, if_neg h19]

theorem jump_eq (s : Machine) (mode : addressingMode) :
    jump s mode = (getMemoryAddress s mode).map (fun a => { s with PC := a }) := by
  cases h : getMemoryAddress s mode <;> simp [jump, h]

/-- Every opcode other than `0xFF` leaves `running` as it was. -/
theorem decodeInstruction_running (s s' : Machine) (inst : Nat) (hinst : inst ≠ 0xFF)
    (h : decodeInstruction s inst = some s') : s'.running = s.running := by
  rcases Nat.lt_or_ge inst 0x13 with hlt | hge
  · interval_cases inst <;>
      simp only [decodeInstruction, erase_eq, store_eq, load_eq, compare_eq, jump_eq,
        branchIfEqual_immediate, branchIfNotEqual_immediate] at h <;>
      simp at h
    all_goals
      first
      | (subst h; rfl)
      | (obtain ⟨a, -, h⟩ := h; subst h; first | rfl | (simp only [advance]; split <;> rfl))
      | (subst h; split <;> rfl)
  · rw [decodeInstruction_unknown s inst (Or.inr ⟨hge, hinst⟩)] at h
    exact (Option.some.inj h) ▸ rfl

/-- A COMPARE opcode together with the addressing mode the `switch` gives it. -/
theorem step_compare_eq (s : Machine) (hrun : s.running = true) (hpc : s.PC < memSize)
    (mode : addressingMode) (a : Nat)
    (hop : (s.memory s.PC = 0x0E ∧ mode = .Immediate) ∨
      (s.memory s.PC = 0x0F ∧ mode = .Relative) ∨
      (s.memory s.PC = 0x10 ∧ mode = .Absolute))
    (ha : getMemoryAddress s mode = some a) :
    step s = some (advance 2 (if s.memory a = s.machineState
      then { s with flags := (s.flags ||| 1) % 256 }
      else { s with flags := (s.flags &&& 254) % 256 })) := by
  rw [step_running s hrun hpc]
  rcases hop with ⟨h, hm⟩ | ⟨h, hm⟩ | ⟨h, hm⟩ <;> subst hm <;> rw [h] <;>
    simp [decodeInstruction, compare_eq, ha]

theorem toUInt16_cast (x : Int) : ((toUInt16 x : Nat) : Int) = x % 65536 := by
  simp only [toUInt16]; omega

theorem step_branchIfEqual_eq (s : Machine) (hrun : s.running = true) (hpc : s.PC < memSize)
    (hop : s.memory s.PC = 0x11) :
    step s = some (if s.flags &&& 1 = 1
      then { s with PC := toUInt16 ((s.PC : Int) + toInt8 (s.memory ((s.PC + 1) % 65536) : Int)) }
      else { s with PC := (s.PC + 2) % 65536 }) := by
  rw [step_running s hrun hpc, hop, ← branchIfEqual_immediate]
  simp [decodeInstruction]

theorem step_branchIfNotEqual_eq (s : Machine) (hrun : s.running = true) (hpc : s.PC < memSize)
    (hop : s.memory s.PC = 0x12) :
    step s = some (if s.flags &&& 1 = 0
      then { s with PC := toUInt16 ((s.PC : Int) + toInt8 (s.memory ((s.PC + 1) % 65536) : Int)) }
      else { s with PC := (s.PC + 2) % 65536 }) := by
  rw [step_running s hrun hpc, hop, ← branchIfNotEqual_immediate]
  simp [decodeInstruction]

/-- What a COMPARE step does to every component of the state. -/
theorem step_compare_spec (s : Machine) (hrun : s.running = true) (hpc : s.PC < memSize)
    (hf : s.flags < 256) (mode : addressingMode) (a : Nat)
    (hop : (s.memory s.PC = 0x0E ∧ mode = .Immediate) ∨
      (s.memory s.PC = 0x0F ∧ mode = .Relative) ∨
      (s.memory s.PC = 0x10 ∧ mode = .Absolute))
    (ha : getMemoryAddress s mode = some a) :
    ∃ s', step s = some s' ∧
      s'.flags &&& 1 = (if s.memory a = s.machineState then 1 else 0) ∧
      s'.flags &&& 0xFE = s.flags &&& 0xFE ∧
      s'.machineState = s.machineState ∧ s'.memory = s.memory ∧
      s'.PC = (s.PC + 2) % 65536 ∧ s'.running = s.running := by
  refine ⟨_, step_compare_eq s hrun hpc mode a hop ha, ?_⟩
  by_cases heq : s.memory a = s.machineState
  · simp only [if_pos heq, advance, Nat.mod_eq_of_lt (or_one_lt _ hf), toUInt16_add]
    and_intros <;> first | exact or_one_and_one _ | exact or_one_and_mask _ | rfl | trivial
  · simp only [if_neg heq, advance, Nat.mod_eq_of_lt (and_mask_lt _ hf), toUInt16_add]
    and_intros <;> first | exact and_mask_and_one _ | exact and_mask_and_mask _ | rfl | trivial

/-- What a BRANCH_IF_EQUAL step does to `PC`, in terms of the signed reading of
the operand byte. -/
theorem step_branchIfEqual_PC (s : Machine) (hrun : s.running = true) (hpc : s.PC < memSize)
    (hop : s.memory s.PC = 0x11) (hb : s.memory ((s.PC + 1) % 65536) < 256) :
    ∃ s', step s = some s' ∧
      (s.flags &&& 1 = 1 → (s'.PC : Int) = ((s.PC : Int) +
        (if s.memory ((s.PC + 1) % 65536) < 128 then (s.memory ((s.PC + 1) % 65536) : Int)
          else (s.memory ((s.PC + 1) % 65536) : Int) - 256)) % 65536) ∧
      (¬ s.flags &&& 1 = 1 → s'.PC = (s.PC + 2) % 65536) := by
  refine ⟨_, step_branchIfEqual_eq s hrun hpc hop, ?_⟩
  by_cases hf : s.flags &&& 1 = 1
  · simp only [if_pos hf, toUInt16_cast, toInt8_byte _ hb]
    and_intros <;>
      first | rfl | trivial | exact fun _ => rfl | exact fun _ => trivial | exact fun h => absurd hf h
  · simp only [if_neg hf]
    and_intros <;>
      first | rfl | trivial | exact fun _ => rfl | exact fun _ => trivial | exact fun h => absurd h hf

/-- Away from the top of the image every step is defined: with `PC ≤ 65533`
no access of the step leaves the block. -/
theorem step_defined (s : Machine) (hpc : s.PC ≤ 65533) : ∃ s', step s = some s' := by
  cases hrun : s.running with
  | false => exact ⟨s, step_halted s hrun⟩
  | true =>
    have hlt : s.PC < memSize := by simp only [memSize]; omega
    obtain ⟨aI, hI⟩ := getMemoryAddress_defined s .Immediate (by simp) (by simp)
    obtain ⟨aR, hR⟩ := getMemoryAddress_defined s .Relative
      (fun _ => by simp only [memSize]; omega) (by simp)
    obtain ⟨aA, hA⟩ := getMemoryAddress_defined s .Absolute (by simp)
      (fun _ => by simp only [memSize]; omega)
    rw [step_running s hrun hlt]
    generalize s.memory s.PC = inst
    rcases Nat.lt_or_ge inst 0x13 with h | h
    · interval_cases inst <;>
        simp [decodeInstruction, erase_eq, store_eq, load_eq, compare_eq, jump_eq,
          branchIfEqual_immediate, branchIfNotEqual_immediate, hI, hR, hA]
    · by_cases hff : inst = 0xFF
      · subst hff
        simp [decodeInstruction]
      · exact ⟨s, decodeInstruction_unknown s inst (Or.inr ⟨h, hff⟩)⟩

/-! ## Concrete machines are well formed -/

theorem memOf_lt (cells : List (Nat × Nat)) (h : ∀ c ∈ cells, c.2 < 256) (a : Nat) :
    memOf cells a < 256 := by
  induction cells with
  | nil => simp [memOf]
  | cons c cs ih =>
    have hc : c.2 < 256 := h c (List.mem_cons_self _ _)
    have hcs : ∀ d ∈ cs, d.2 < 256 := fun d hd => h d (List.mem_cons_of_mem _ hd)
    have ih' := ih hcs
    obtain ⟨k, v⟩ := c
    simp only [memOf, List.lookup_cons] at ih' ⊢
    by_cases hk : (a == k) = true
    · simpa [hk] using hc
    · simpa [hk] using ih'

theorem machineOf_WF (cells : List (Nat × Nat)) (pc acc fl : Nat) (run : Bool)
    (hc : ∀ c ∈ cells, c.2 < 256) (hpc : pc < 65536) (hacc : acc < 256) (hfl : fl < 256) :
    WF (machineOf cells pc acc fl run) :=
  ⟨hpc, hacc, hfl, fun a _ => memOf_lt cells hc a⟩

/-! ## Loading a program -/

/-- The copy loop succeeds when the source and the image are long enough; it
writes `data[j]` at `512 + j` for the indices it visits and nothing else. -/
theorem createLoop_spec (data : List Nat) :
    ∀ (n i : Nat) (m : Memory), i + n ≤ data.length → 512 + i + n ≤ memSize →
      ∃ m', createLoop data n i m = some m' ∧
        (∀ j, i ≤ j → j < i + n → data[j]? = some (m' (512 + j))) ∧
        (∀ a, (a < 512 + i ∨ 512 + i + n ≤ a) → m' a = m a) := by
  intro n
  induction n with
  | zero =>
    intro i m _ _
    exact ⟨m, rfl, fun j h1 h2 => absurd h2 (by omega), fun _ _ => rfl⟩
  | succ n ih =>
    intro i m hd hm
    have hi : i < data.length := by omega
    have hw : 512 + i < memSize := by omega
    obtain ⟨m', hrun, hcopy, hframe⟩ :=
      ih (i + 1) (fun j => if j = 512 + i then data[i] else m j) (by omega) (by omega)
    refine ⟨m', ?_, ?_, ?_⟩
    · simp only [createLoop, List.getElem?_eq_getElem hi, writeMem, if_pos hw]
      exact hrun
    · intro j h1 h2
      by_cases hj : j = i
      · subst hj
        rw [hframe (512 + j) (Or.inl (by omega))]
        simp [List.getElem?_eq_getElem hi]
      · exact hcopy j (by omega) (by omega)
    · intro a ha
      rw [hframe a (by omega)]
      have : a ≠ 512 + i := by omega
      simp [this]

/-- C1: for every program `P` of length at most 65024, `createMachine(P, len P)`
returns a machine whose image holds `P[i]` at index `512 + i` for every
`i < len P`, whatever the block held before. -/
theorem createMachine_loads_program (fresh : Memory) (P : List Nat)
    (hL : P.length ≤ 65024) :
    ∃ s, createMachine fresh P P.length = some s ∧
      ∀ i (hi : i < P.length), readMem s.memory (512 + i) = some (P.get ⟨i, hi⟩) := by
  obtain ⟨m', hrun, hcopy, -⟩ :=
    createLoop_spec P P.length 0 fresh (by omega) (by simp only [memSize]; omega)
  refine ⟨{ memory := m', PC := 512, flags := 0, machineState := 0, running := true }, ?_, ?_⟩
  · simp [createMachine, hrun]
  · intro i hi
    have h := hcopy i (Nat.zero_le _) (by omega)
    rw [List.getElem?_eq_getElem hi] at h
    have hlt : 512 + i < memSize := by simp only [memSize]; omega
    simp only [readMem, if_pos hlt, List.get_eq_getElem]
    exact (Option.some.inj h) ▸ rfl

/-- C1 at the program `[0x07, 0x05, 0xFF]`. -/
theorem createMachine_loads_program_witness :
    [0x07, 0x05, 0xFF].length ≤ 65024 ∧
    ∃ s, createMachine (fun _ => 0) [0x07, 0x05, 0xFF] [0x07, 0x05, 0xFF].length = some s ∧
      ∀ i (hi : i < [0x07, 0x05, 0xFF].length),
        readMem s.memory (512 + i) = some ([0x07, 0x05, 0xFF].get ⟨i, hi⟩) :=
  ⟨by decide, createMachine_loads_program (fun _ => 0) [0x07, 0x05, 0xFF] (by decide)⟩

/-! ## Halting and unknown opcodes -/

/-- C2: on a halted machine any number of calls of `step()` returns the very
same state: `PC`, accumulator, flags, `running` and the image are untouched. -/
theorem stepN_halted_noop (n : Nat) (s : Machine) (h : s.running = false) :
    stepN n s = some s :=
  stepN_halted n s h

/-- C2 at a halted machine and seven steps. -/
theorem stepN_halted_noop_witness :
    (machineOf [(512, 0xFF)] 512 3 1 false).running = false ∧
    stepN 7 (machineOf [(512, 0xFF)] 512 3 1 false) =
      some (machineOf [(512, 0xFF)] 512 3 1 false) :=
  ⟨rfl, stepN_halted_noop 7 _ rfl⟩

/-- C3: a running machine is halted after one step exactly when the byte at
`PC` is `0xFF`; then the step returns the same state with `running` cleared,
so `PC`, accumulator, flags and image are unchanged.  No other opcode ever
yields a halted state, and with `PC ≤ 65533` the step always yields one. -/
theorem step_halts_iff (s : Machine) (hwf : WF s) (hrun : s.running = true) :
    (s.memory s.PC = 0xFF → step s = some { s with running := false }) ∧
    (∀ s', step s = some s' → (s'.running = false ↔ s.memory s.PC = 0xFF)) ∧
    (s.PC ≤ 65533 → ∃ s', step s = some s') := by
  have hpc : s.PC < memSize := hwf.1
  refine ⟨fun h => ?_, fun s' hs' => ⟨fun hr => ?_, fun h => ?_⟩, step_defined s⟩
  · rw [step_running s hrun hpc]
    simp [decodeInstruction, h, halt]
  · rw [step_running s hrun hpc] at hs'
    by_contra hne
    have := decodeInstruction_running s s' _ hne hs'
    rw [hr, hrun] at this
    exact absurd this (by decide)
  · rw [step_running s hrun hpc] at hs'
    simp only [decodeInstruction, h, halt] at hs'
    simp at hs'
    subst hs'
    rfl

/-- C3 at a machine whose next opcode is `0xFF`. -/
theorem step_halts_iff_witness :
    WF (machineOf [(512, 0xFF)] 512 3 1 true) ∧
    (machineOf [(512, 0xFF)] 512 3 1 true).running = true ∧
    ((machineOf [(512, 0xFF)] 512 3 1 true).memory (machineOf [(512, 0xFF)] 512 3 1 true).PC = 0xFF →
      step (machineOf [(512, 0xFF)] 512 3 1 true) =
        some { machineOf [(512, 0xFF)] 512 3 1 true with running := false }) ∧
    (∀ s', step (machineOf [(512, 0xFF)] 512 3 1 true) = some s' →
      (s'.running = false ↔
        (machineOf [(512, 0xFF)] 512 3 1 true).memory (machineOf [(512, 0xFF)] 512 3 1 true).PC = 0xFF)) ∧
    ((machineOf [(512, 0xFF)] 512 3 1 true).PC ≤ 65533 →
      ∃ s', step (machineOf [(512, 0xFF)] 512 3 1 true) = some s') :=
  have hwf : WF (machineOf [(512, 0xFF)] 512 3 1 true) :=
    machineOf_WF _ _ _ _ _ (by decide) (by decide) (by decide) (by decide)
  ⟨hwf, rfl, step_halts_iff _ hwf rfl⟩

/-- C4: when the byte at `PC` is `0x00`, `0x01` or lies in `0x13..0xFE`, a
step of a running machine returns the state unchanged: `PC` stays, and so do
accumulator, flags, `running` and the image. -/
theorem step_unknown_opcode (s : Machine) (hwf : WF s) (hrun : s.running = true)
    (hop : s.memory s.PC = 0x00 ∨ s.memory s.PC = 0x01 ∨
      (0x13 ≤ s.memory s.PC ∧ s.memory s.PC ≤ 0xFE)) :
    step s = some s := by
  rw [step_running s hrun hwf.1]
  by_cases h1 : s.memory s.PC = 0x01
  · simp [decodeInstruction, h1]
  · exact decodeInstruction_unknown s _ (by omega)

/-- C4 at the undefined opcode `0x42`. -/
theorem step_unknown_opcode_witness :
    WF (machineOf [(512, 0x42)] 512 3 1 true) ∧
    (machineOf [(512, 0x42)] 512 3 1 true).running = true ∧
    step (machineOf [(512, 0x42)] 512 3 1 true) = some (machineOf [(512, 0x42)] 512 3 1 true) :=
  have hwf : WF (machineOf [(512, 0x42)] 512 3 1 true) :=
    machineOf_WF _ _ _ _ _ (by decide) (by decide) (by decide) (by decide)
  ⟨hwf, rfl, step_unknown_opcode _ hwf rfl (by decide)⟩

/-! ## Advancing the program counter -/

/-- C5 as stated fails at the top of the image: with `PC = 65535` and the
opcode `0x03` (ERASE Relative) the operand read `memory[PC+1]` indexes one
past the 65536-byte block, so the step has no defined result and in
particular no state whose `PC` is `(65535 + 2) mod 65536`. -/
theorem step_advance_top_counterexample :
    WF (machineOf [(65535, 0x03)] 65535 0 0 true) ∧
    (machineOf [(65535, 0x03)] 65535 0 0 true).running = true ∧
    (machineOf [(65535, 0x03)] 65535 0 0 true).memory 65535 = 0x03 ∧
    readMem (machineOf [(65535, 0x03)] 65535 0 0 true).memory (65535 + 1) = none ∧
    step (machineOf [(65535, 0x03)] 65535 0 0 true) = none ∧
    ¬ ∃ s', step (machineOf [(65535, 0x03)] 65535 0 0 true) = some s' ∧
      s'.PC = (65535 + 2) % 65536 := by
  have hstep : step (machineOf [(65535, 0x03)] 65535 0 0 true) = none := rfl
  refine ⟨machineOf_WF _ _ _ _ _ (by decide) (by decide) (by decide) (by decide),
    rfl, rfl, rfl, hstep, ?_⟩
  rintro ⟨s', hs', -⟩
  rw [hstep] at hs'
  exact absurd hs' (by simp)

/-- C5 (amended): for a running machine whose opcode is a non-control-transfer
table opcode and whose operand bytes lie inside the image (`PC + 1 ≤ 65535`
for the Relative opcodes `0x03, 0x08, 0x0A, 0x0F`, `PC + 2 ≤ 65535` for the
Absolute opcodes `0x04, 0x09, 0x0B, 0x10`, no condition for the others), the
step is defined and sets `PC` to `(PC + w) mod 65536`, with `w = 2` for
`0x02, 0x03, 0x07, 0x08, 0x0A, 0x0E, 0x0F, 0x10`, `w = 3` for `0x04, 0x09, 0x0B`
and `w = 1` for `0x0C, 0x0D`. -/
theorem step_advance (s : Machine) (hwf : WF s) (hrun : s.running = true)
    (hrel : s.memory s.PC ∈ [0x03, 0x08, 0x0A, 0x0F] → s.PC + 1 < 65536)
    (habs : s.memory s.PC ∈ [0x04, 0x09, 0x0B, 0x10] → s.PC + 2 < 65536) :
    (s.memory s.PC ∈ [0x02, 0x03, 0x07, 0x08, 0x0A, 0x0E, 0x0F, 0x10] →
      ∃ s', step s = some s' ∧ s'.PC = (s.PC + 2) % 65536) ∧
    (s.memory s.PC ∈ [0x04, 0x09, 0x0B] →
      ∃ s', step s = some s' ∧ s'.PC = (s.PC + 3) % 65536) ∧
    (s.memory s.PC ∈ [0x0C, 0x0D] →
      ∃ s', step s = some s' ∧ s'.PC = (s.PC + 1) % 65536) := by
  rw [step_running s hrun hwf.1]
  have hI := getMemoryAddress_defined s .Immediate (by simp) (by simp)
  simp only [List.mem_cons, List.mem_singleton, List.not_mem_nil, or_false] at *
  refine ⟨fun h => ?_, fun h => ?_, fun h => ?_⟩
  · rcases h with h | h | h | h | h | h | h | h <;> rw [h] at hrel habs ⊢ <;>
      simp only [decodeInstruction, erase_eq, store_eq, load_eq, compare_eq] <;> simp
    all_goals
      first
      | exact advance_PC _ _
      | (obtain ⟨a, ha⟩ := hI
         exact ⟨a, ha, by rw [advance_PC]; first | done | (split <;> rfl)⟩)
      | (obtain ⟨a, ha⟩ := getMemoryAddress_defined s .Relative (fun _ => hrel (by simp)) (by simp)
         exact ⟨a, ha, by rw [advance_PC]; first | done | (split <;> rfl)⟩)
      | (obtain ⟨a, ha⟩ := getMemoryAddress_defined s .Absolute (by simp) (fun _ => habs (by simp))
         exact ⟨a, ha, by rw [advance_PC]; first | done | (split <;> rfl)⟩)
  · rcases h with h | h | h <;> rw [h] at hrel habs ⊢ <;>
      simp only [decodeInstruction, erase_eq, store_eq, load_eq, compare_eq] <;> simp
    all_goals
      obtain ⟨a, ha⟩ := getMemoryAddress_defined s .Absolute (by simp) (fun _ => habs (by simp))
      exact ⟨a, ha, by rw [advance_PC]⟩
  · rcases h with h | h <;> rw [h] <;>
      simp only [decodeInstruction] <;> simp <;> rw [advance_PC] <;> rfl

/-- C5 (amended) at LOAD Relative in the last position where its operand is
inside the image: `PC = 65534` wraps to `0`. -/
theorem step_advance_witness :
    WF (machineOf [(65534, 0x08), (65535, 0x01)] 65534 0 0 true) ∧
    (machineOf [(65534, 0x08), (65535, 0x01)] 65534 0 0 true).running = true ∧
    ∃ s', step (machineOf [(65534, 0x08), (65535, 0x01)] 65534 0 0 true) = some s' ∧
      s'.PC = (65534 + 2) % 65536 :=
  have hwf : WF (machineOf [(65534, 0x08), (65535, 0x01)] 65534 0 0 true) :=
    machineOf_WF _ _ _ _ _ (by decide) (by decide) (by decide) (by decide)
  ⟨hwf, rfl, (step_advance _ hwf rfl (fun _ => by decide)
    (fun h => absurd h (by decide))).1 (by decide)⟩

/-! ## Addressing modes -/

/-- LOAD Relative in general: the operand byte `b` is added to `PC` as the
value `0..255`; the conversion `(int16_t)b` of a byte never yields a
negative offset. -/
theorem step_load_relative (s : Machine) (hwf : WF s) (hrun : s.running = true)
    (hpc : s.PC + 1 < memSize) (hop : s.memory s.PC = 0x08) :
    step s = some (advance 2
      { s with machineState := s.memory ((s.PC + s.memory (s.PC + 1)) % 65536) }) := by
  rw [step_running s hrun hwf.1, hop]
  simp [decodeInstruction, load_eq, getMemoryAddress_relative s hpc (hwf.2.2.2 _ hpc)]

/-- C6: the code at the operand byte `0xFF`.  With `PC = 512`, LOAD Relative
(`0x08`) and operand `0xFF`, the operand address is `512 + 255 = 767` and the
accumulator receives `memory[767] = 9`; the byte at `PC - 1 = 511`, which the
signed reading would load, is `7`. -/
theorem step_load_relative_0xFF :
    getMemoryAddress (machineOf [(511, 7), (512, 0x08), (513, 0xFF), (767, 9)] 512 0 0 true)
      .Relative = some 767 ∧
    step (machineOf [(511, 7), (512, 0x08), (513, 0xFF), (767, 9)] 512 0 0 true) =
      some (machineOf [(511, 7), (512, 0x08), (513, 0xFF), (767, 9)] 514 9 0 true) ∧
    (machineOf [(511, 7), (512, 0x08), (513, 0xFF), (767, 9)] 512 0 0 true).memory (512 - 1) = 7 :=
  ⟨rfl, rfl, rfl⟩

/-- C7: in Absolute mode the operand address is `memory[PC+1] + 256 * memory[PC+2]`,
whatever `PC` is.  For a running machine with `PC ≤ 65533`, LOAD Absolute
(`0x09`) puts the byte at that address in the accumulator, and JUMP Absolute
(`0x06`) makes that address the new `PC`, everything else unchanged and with
no further advance. -/
theorem step_absolute (s : Machine) (hwf : WF s) (hrun : s.running = true)
    (hpc : s.PC ≤ 65533) :
    getMemoryAddress s .Absolute =
      some (s.memory (s.PC + 1) + 256 * s.memory (s.PC + 2)) ∧
    (s.memory s.PC = 0x09 → ∃ s', step s = some s' ∧
      s'.machineState = s.memory (s.memory (s.PC + 1) + 256 * s.memory (s.PC + 2))) ∧
    (s.memory s.PC = 0x06 →
      step s = some { s with PC := s.memory (s.PC + 1) + 256 * s.memory (s.PC + 2) }) := by
  have h2 : s.PC + 2 < memSize := by simp only [memSize]; omega
  have h1 : s.PC + 1 < memSize := by simp only [memSize]; omega
  have hga := getMemoryAddress_absolute s h2 (hwf.2.2.2 _ h1) (hwf.2.2.2 _ h2)
  rw [step_running s hrun hwf.1]
  refine ⟨hga, fun h => ?_, fun h => ?_⟩
  · rw [h]
    simp [decodeInstruction, load_eq, hga, advance]
  · rw [h]
    simp [decodeInstruction, jump_eq, hga]

/-- C7 at LOAD Absolute with operand bytes `0x34, 0x12`: the byte at `0x1234`
is loaded. -/
theorem step_absolute_witness :
    WF (machineOf [(512, 0x09), (513, 0x34), (514, 0x12), (0x1234, 77)] 512 0 0 true) ∧
    (machineOf [(512, 0x09), (513, 0x34), (514, 0x12), (0x1234, 77)] 512 0 0 true).running = true ∧
    (machineOf [(512, 0x09), (513, 0x34), (514, 0x12), (0x1234, 77)] 512 0 0 true).PC ≤ 65533 ∧
    ∃ s', step (machineOf [(512, 0x09), (513, 0x34), (514, 0x12), (0x1234, 77)] 512 0 0 true)
        = some s' ∧
      s'.machineState = 77 :=
  have hwf : WF (machineOf [(512, 0x09), (513, 0x34), (514, 0x12), (0x1234, 77)] 512 0 0 true) :=
    machineOf_WF _ _ _ _ _ (by decide) (by decide) (by decide) (by decide)
  ⟨hwf, rfl, by decide, (step_absolute _ hwf rfl (by decide)).2.1 rfl⟩

/-! ## Compare and branch -/

/-- C8: for a running machine whose opcode is a COMPARE (`0x0E` Immediate,
`0x0F` Relative, `0x10` Absolute) with operand address `a`, after the step
bit 0 of the flags is 1 when `memory[a]` equals the accumulator and 0
otherwise, bits 1..7 are as before, and accumulator and image are unchanged. -/
theorem step_compare_flags (s : Machine) (hwf : WF s) (hrun : s.running = true)
    (mode : addressingMode) (a : Nat)
    (hop : (s.memory s.PC = 0x0E ∧ mode = .Immediate) ∨
      (s.memory s.PC = 0x0F ∧ mode = .Relative) ∨
      (s.memory s.PC = 0x10 ∧ mode = .Absolute))
    (ha : getMemoryAddress s mode = some a) :
    ∃ s', step s = some s' ∧
      s'.flags &&& 1 = (if s.memory a = s.machineState then 1 else 0) ∧
      s'.flags &&& 0xFE = s.flags &&& 0xFE ∧
      s'.machineState = s.machineState ∧ s'.memory = s.memory := by
  obtain ⟨s', hs', h0, hmask, hacc, hmem, -, -⟩ :=
    step_compare_spec s hrun hwf.1 hwf.2.2.1 mode a hop ha
  exact ⟨s', hs', h0, hmask, hacc, hmem⟩

/-- C8 at COMPARE Immediate with equal bytes and flags `0xA4`: bit 0 becomes 1,
bits 1..7 stay `0xA4`. -/
theorem step_compare_flags_witness :
    WF (machineOf [(512, 0x0E), (513, 5)] 512 5 0xA4 true) ∧
    (machineOf [(512, 0x0E), (513, 5)] 512 5 0xA4 true).running = true ∧
    getMemoryAddress (machineOf [(512, 0x0E), (513, 5)] 512 5 0xA4 true) .Immediate = some 513 ∧
    ∃ s', step (machineOf [(512, 0x0E), (513, 5)] 512 5 0xA4 true) = some s' ∧
      s'.flags &&& 1 = 1 ∧ s'.flags &&& 0xFE = 0xA4 ∧ s'.machineState = 5 ∧
      s'.memory = memOf [(512, 0x0E), (513, 5)] :=
  have hwf : WF (machineOf [(512, 0x0E), (513, 5)] 512 5 0xA4 true) :=
    machineOf_WF _ _ _ _ _ (by decide) (by decide) (by decide) (by decide)
  ⟨hwf, rfl, rfl, step_compare_flags _ hwf rfl .Immediate 513 (Or.inl ⟨rfl, rfl⟩) rfl⟩

/-- C9: for a running machine with opcode `0x11` (BRANCH_IF_EQUAL) the new `PC`
is `(PC + signed8 b) mod 65536` when bit 0 of the flags is set and
`(PC + 2) mod 65536` otherwise, where `b` is the byte after the opcode and
`signed8 b` is `b` for `b < 128` and `b - 256` for `b ≥ 128`; for `0x12`
(BRANCH_IF_NOT_EQUAL) the test is inverted.  Accumulator, flags, image and
`running` are unchanged.  The byte after the opcode is fetched at the
`uint16_t` address `(PC + 1) mod 65536`. -/
theorem step_branch (s : Machine) (hwf : WF s) (hrun : s.running = true) :
    (s.memory s.PC = 0x11 → ∃ s', step s = some s' ∧
      (s.flags &&& 1 = 1 → (s'.PC : Int) = ((s.PC : Int) +
        (if s.memory ((s.PC + 1) % 65536) < 128 then (s.memory ((s.PC + 1) % 65536) : Int)
          else (s.memory ((s.PC + 1) % 65536) : Int) - 256)) % 65536) ∧
      (¬ s.flags &&& 1 = 1 → s'.PC = (s.PC + 2) % 65536) ∧
      s'.machineState = s.machineState ∧ s'.flags = s.flags ∧ s'.memory = s.memory ∧
      s'.running = s.running) ∧
    (s.memory s.PC = 0x12 → ∃ s', step s = some s' ∧
      (¬ s.flags &&& 1 = 1 → (s'.PC : Int) = ((s.PC : Int) +
        (if s.memory ((s.PC + 1) % 65536) < 128 then (s.memory ((s.PC + 1) % 65536) : Int)
          else (s.memory ((s.PC + 1) % 65536) : Int) - 256)) % 65536) ∧
      (s.flags &&& 1 = 1 → s'.PC = (s.PC + 2) % 65536) ∧
      s'.machineState = s.machineState ∧ s'.flags = s.flags ∧ s'.memory = s.memory ∧
      s'.running = s.running) := by
  have hb : s.memory ((s.PC + 1) % 65536) < 256 :=
    hwf.2.2.2 _ (by simp only [memSize]; omega)
  have hbit : s.flags &&& 1 = 0 ∨ s.flags &&& 1 = 1 := by
    rw [Nat.and_one_is_mod]; omega
  refine ⟨fun h => ?_, fun h => ?_⟩
  · refine ⟨_, step_branchIfEqual_eq s hrun hwf.1 h, ?_⟩
    by_cases hf : s.flags &&& 1 = 1
    · simp only [if_pos hf, toUInt16_cast, toInt8_byte _ hb]
      and_intros <;>
        first | rfl | trivial | exact fun _ => rfl | exact fun _ => trivial | exact fun h => absurd hf h
    · simp only [if_neg hf]
      and_intros <;>
        first | rfl | trivial | exact fun _ => rfl | exact fun _ => trivial | exact fun h => absurd h hf
  · refine ⟨_, step_branchIfNotEqual_eq s hrun hwf.1 h, ?_⟩
    by_cases hf : s.flags &&& 1 = 1
    · have h0 : ¬ s.flags &&& 1 = 0 := by omega
      simp only [if_neg h0]
      and_intros <;>
        first | rfl | trivial | exact fun _ => rfl | exact fun _ => trivial | exact fun h => absurd hf h
    · have h0 : s.flags &&& 1 = 0 := by omega
      simp only [if_pos h0, toUInt16_cast, toInt8_byte _ hb]
      and_intros <;>
        first | rfl | trivial | exact fun _ => rfl | exact fun _ => trivial | exact fun h => absurd h hf

/-- C9 at BRANCH_IF_EQUAL with the flag set and operand `0xFE`: the branch goes
back by two, from 512 to 510. -/
theorem step_branch_witness :
    WF (machineOf [(512, 0x11), (513, 0xFE)] 512 0 1 true) ∧
    (machineOf [(512, 0x11), (513, 0xFE)] 512 0 1 true).running = true ∧
    ∃ s', step (machineOf [(512, 0x11), (513, 0xFE)] 512 0 1 true) = some s' ∧
      (s'.PC : Int) = 510 :=
  have hwf : WF (machineOf [(512, 0x11), (513, 0xFE)] 512 0 1 true) :=
    machineOf_WF _ _ _ _ _ (by decide) (by decide) (by decide) (by decide)
  match (step_branch _ hwf rfl).1 rfl with
  | ⟨s', hs', hpc, _⟩ => ⟨hwf, rfl, s', hs', (hpc rfl).trans (by decide)⟩

/-- C10: for a running machine with `PC ≤ 65531` whose opcode is a COMPARE
(`0x0E`, `0x0F` or `0x10`) with operand address `a`, and with
`memory[PC+2] = 0x11`, two steps are defined and leave
`PC = (PC + 2 + signed8(memory[PC+3])) mod 65536` when `memory[a]` equals the
accumulator and `PC = PC + 4` when it differs. -/
theorem step_compare_then_branch (s : Machine) (hwf : WF s) (hrun : s.running = true)
    (hpc : s.PC ≤ 65531) (mode : addressingMode) (a : Nat)
    (hop : (s.memory s.PC = 0x0E ∧ mode = .Immediate) ∨
      (s.memory s.PC = 0x0F ∧ mode = .Relative) ∨
      (s.memory s.PC = 0x10 ∧ mode = .Absolute))
    (ha : getMemoryAddress s mode = some a)
    (hbr : s.memory (s.PC + 2) = 0x11) :
    ∃ s2, stepN 2 s = some s2 ∧
      (s.memory a = s.machineState → (s2.PC : Int) = ((s.PC : Int) + 2 +
        (if s.memory (s.PC + 3) < 128 then (s.memory (s.PC + 3) : Int)
          else (s.memory (s.PC + 3) : Int) - 256)) % 65536) ∧
      (s.memory a ≠ s.machineState → s2.PC = s.PC + 4) := by
  have hb : s.memory (s.PC + 3) < 256 := hwf.2.2.2 _ (by simp only [memSize]; omega)
  obtain ⟨s1, hs1, hbit, -, -, hmem, hPC, hrun1⟩ :=
    step_compare_spec s hrun hwf.1 hwf.2.2.1 mode a hop ha
  have e1 : s1.PC = s.PC + 2 := by rw [hPC]; exact Nat.mod_eq_of_lt (by omega)
  have e2 : (s1.PC + 1) % 65536 = s.PC + 3 := by rw [e1]; omega
  have e3 : (s1.PC + 2) % 65536 = s.PC + 4 := by rw [e1]; omega
  obtain ⟨s2, hs2, htaken, hnot⟩ := step_branchIfEqual_PC s1 (hrun1.trans hrun)
    (by rw [e1]; simp only [memSize]; omega) (by rw [hmem, e1]; exact hbr)
    (by rw [hmem, e2]; exact hb)
  refine ⟨s2, by simp only [stepN, hs1, hs2], fun heq => ?_, fun hne => ?_⟩
  · rw [if_pos heq] at hbit
    have := htaken hbit
    rw [hmem, e2, e1] at this
    rw [this]
    push_cast
    rfl
  · rw [if_neg hne] at hbit
    rw [hnot (by omega), e3]

/-- C10 at COMPARE Immediate followed by BRANCH_IF_EQUAL with operand `0xFC`:
the bytes are equal, the branch is taken from 514 back to 510. -/
theorem step_compare_then_branch_witness :
    WF (machineOf [(512, 0x0E), (513, 5), (514, 0x11), (515, 0xFC)] 512 5 0 true) ∧
    (machineOf [(512, 0x0E), (513, 5), (514, 0x11), (515, 0xFC)] 512 5 0 true).running = true ∧
    (machineOf [(512, 0x0E), (513, 5), (514, 0x11), (515, 0xFC)] 512 5 0 true).PC ≤ 65531 ∧
    getMemoryAddress (machineOf [(512, 0x0E), (513, 5), (514, 0x11), (515, 0xFC)] 512 5 0 true)
      .Immediate = some 513 ∧
    ∃ s2, stepN 2 (machineOf [(512, 0x0E), (513, 5), (514, 0x11), (515, 0xFC)] 512 5 0 true)
        = some s2 ∧
      (s2.PC : Int) = 510 :=
  have hwf : WF (machineOf [(512, 0x0E), (513, 5), (514, 0x11), (515, 0xFC)] 512 5 0 true) :=
    machineOf_WF _ _ _ _ _ (by decide) (by decide) (by decide) (by decide)
  match step_compare_then_branch _ hwf rfl (by decide) .Immediate 513 (Or.inl ⟨rfl, rfl⟩) rfl rfl with
  | ⟨s2, hs2, htaken, _⟩ => ⟨hwf, rfl, by decide, rfl, s2, hs2, (htaken rfl).trans (by decide)⟩

/-! ## Increment and decrement -/

theorem toUInt8_succ (v : Nat) : toUInt8 ((v : Int) + 1) = (v + 1) % 256 := by
  simp only [toUInt8]; omega

theorem toUInt8_pred (v : Nat) : toUInt8 ((v : Int) - 1) = (v + 255) % 256 := by
  simp only [toUInt8]; omega

theorem step_increment_eq (s : Machine) (hrun : s.running = true) (hpc : s.PC < memSize)
    (hop : s.memory s.PC = 0x0C) :
    step s = some { s with machineState := (s.machineState + 1) % 256,
                           PC := (s.PC + 1) % 65536 } := by
  rw [step_running s hrun hpc, hop]
  simp [decodeInstruction, advance, incrementState, toUInt8_succ, toUInt16_succ]

theorem step_decrement_eq (s : Machine) (hrun : s.running = true) (hpc : s.PC < memSize)
    (hop : s.memory s.PC = 0x0D) :
    step s = some { s with machineState := (s.machineState + 255) % 256,
                           PC := (s.PC + 1) % 65536 } := by
  rw [step_running s hrun hpc, hop]
  simp [decodeInstruction, advance, decrementState, toUInt8_pred, toUInt16_succ]

/-- C11: for a running machine with accumulator `v`, a step on opcode `0x0C`
yields accumulator `(v + 1) mod 256` and a step on `0x0D` yields
`(v - 1) mod 256`, the latter written `(v + 255) mod 256` over the naturals
and as `((v : Int) - 1) mod 256` over the integers; so 255 increments to 0
and 0 decrements to 255.  In both cases `PC` becomes `(PC + 1) mod 65536` and
flags, image and `running` are unchanged. -/
theorem step_increment_decrement (s : Machine) (hwf : WF s) (hrun : s.running = true) :
    (s.memory s.PC = 0x0C →
      step s = some { s with machineState := (s.machineState + 1) % 256,
                             PC := (s.PC + 1) % 65536 }) ∧
    (s.memory s.PC = 0x0D →
      step s = some { s with machineState := (s.machineState + 255) % 256,
                             PC := (s.PC + 1) % 65536 }) ∧
    (((s.machineState + 255) % 256 : Nat) : Int) = ((s.machineState : Int) - 1) % 256 ∧
    (s.machineState = 255 → (s.machineState + 1) % 256 = 0) ∧
    (s.machineState = 0 → (s.machineState + 255) % 256 = 255) := by
  refine ⟨step_increment_eq s hrun hwf.1, step_decrement_eq s hrun hwf.1, ?_, ?_, ?_⟩
  · omega
  · intro h; rw [h]
  · intro h; rw [h]

/-- C11 at accumulator 255 and opcode `0x0C`: the accumulator wraps to 0 and
`PC` goes from 512 to 513. -/
theorem step_increment_decrement_witness :
    WF (machineOf [(512, 0x0C)] 512 255 0xA4 true) ∧
    (machineOf [(512, 0x0C)] 512 255 0xA4 true).running = true ∧
    step (machineOf [(512, 0x0C)] 512 255 0xA4 true) =
      some (machineOf [(512, 0x0C)] 513 0 0xA4 true) :=
  have hwf : WF (machineOf [(512, 0x0C)] 512 255 0xA4 true) :=
    machineOf_WF _ _ _ _ _ (by decide) (by decide) (by decide) (by decide)
  ⟨hwf, rfl, (step_increment_decrement _ hwf rfl).1 rfl⟩

/-! ## Creating a machine and running a program -/

/-- Everything `createMachine` does for a program that fits: the registers are
reset, the program bytes are at `512 + j`, and every other byte of the block
is what `malloc` returned. -/
theorem createMachine_spec (fresh : Memory) (P : List Nat) (hL : P.length ≤ 65024) :
    ∃ m, createMachine fresh P P.length =
        some { memory := m, PC := 512, machineState := 0, flags := 0, running := true } ∧
      (∀ j, j < P.length → P[j]? = some (m (512 + j))) ∧
      (∀ a, (a < 512 ∨ 512 + P.length ≤ a) → m a = fresh a) := by
  obtain ⟨m, hrun, hcopy, hframe⟩ :=
    createLoop_spec P P.length 0 fresh (by omega) (by simp only [memSize]; omega)
  refine ⟨m, by simp [createMachine, hrun], fun j hj => hcopy j (Nat.zero_le _) (by omega), ?_⟩
  intro a ha
  exact hframe a (by omega)

theorem stepN_add (a b : Nat) (s : Machine) :
    stepN (a + b) s = (stepN a s).bind (stepN b) := by
  induction a generalizing s with
  | zero => simp [stepN]
  | succ a ih =>
    rw [Nat.succ_add]
    simp only [stepN]
    cases step s with
    | none => rfl
    | some s' => exact ih s'

/-- A run of `k` INCREMENT opcodes starting at `pc`. -/
theorem stepN_increments (m : Memory) (f : Nat) :
    ∀ (k pc acc : Nat), acc < 256 → (∀ i, i < k → m (pc + i) = 0x0C) → pc + k < 65536 →
      stepN k { memory := m, PC := pc, machineState := acc, flags := f, running := true } =
        some { memory := m, PC := pc + k, machineState := (acc + k) % 256, flags := f,
               running := true } := by
  intro k
  induction k with
  | zero =>
    intro pc acc hacc _ _
    simp only [stepN, Nat.add_zero, Nat.mod_eq_of_lt hacc]
  | succ k ih =>
    intro pc acc _ hm hpc
    have h0 : m pc = 0x0C := hm 0 (Nat.succ_pos _)
    have hstep := step_increment_eq
      { memory := m, PC := pc, machineState := acc, flags := f, running := true } rfl
      (by simp only [memSize]; omega) h0
    simp only [stepN, hstep]
    have e : (pc + 1) % 65536 = pc + 1 := Nat.mod_eq_of_lt (by omega)
    rw [e, ih (pc + 1) ((acc + 1) % 256) (Nat.mod_lt _ (by decide)) (fun i hi => by
      have := hm (i + 1) (by omega)
      rwa [Nat.add_assoc, Nat.add_comm 1 i]) (by omega)]
    have e1 : pc + 1 + k = pc + (k + 1) := by omega
    have e2 : ((acc + 1) % 256 + k) % 256 = (acc + (k + 1)) % 256 := by omega
    rw [e1, e2]

/-- C12: for every `n ≤ 65023`, the machine created from `n` bytes `0x0C`
followed by `0xFF` and stepped `n + 1` times is halted with
`getMachineState() = n mod 256` and `PC = 512 + n`, whatever the fresh block
held. -/
theorem increments_then_halt (fresh : Memory) (n : Nat) (hn : n ≤ 65023) :
    ∃ s0 s, createMachine fresh (List.replicate n 0x0C ++ [0xFF])
        (List.replicate n 0x0C ++ [0xFF]).length = some s0 ∧
      stepN (n + 1) s0 = some s ∧
      getMachineState s = n % 256 ∧ s.running = false ∧ s.PC = 512 + n := by
  have hlen : (List.replicate n 0x0C ++ [0xFF]).length = n + 1 := by simp
  obtain ⟨m, hcreate, hprog, -⟩ :=
    createMachine_spec fresh (List.replicate n 0x0C ++ [0xFF]) (by rw [hlen]; omega)
  have hinc : ∀ i, i < n → m (512 + i) = 0x0C := by
    intro i hi
    have h := hprog i (by rw [hlen]; omega)
    rw [List.getElem?_append_left (by simpa using hi), List.getElem?_replicate] at h
    simp only [hi, if_true] at h
    exact (Option.some.inj h).symm
  have hhalt : m (512 + n) = 0xFF := by
    have h := hprog n (by rw [hlen]; omega)
    rw [List.getElem?_append_right (by simp)] at h
    simp at h
    exact h.symm
  have hrun := stepN_increments m 0 n 512 0 (by decide) hinc (by omega)
  have hlast : step (Machine.mk m (512 + n) ((0 + n) % 256) 0 true) =
      some (Machine.mk m (512 + n) ((0 + n) % 256) 0 false) := by
    rw [step_running _ rfl (by simp only [memSize]; omega)]
    show decodeInstruction _ (m (512 + n)) = _
    rw [hhalt]
    simp [decodeInstruction, halt]
  refine ⟨_, Machine.mk m (512 + n) ((0 + n) % 256) 0 false, hcreate, ?_, ?_, rfl, rfl⟩
  · rw [stepN_add, hrun]
    simp only [Option.bind, stepN, hlast]
  · simp [getMachineState]

/-- C12 at `n = 3`: the program `[0x0C, 0x0C, 0x0C, 0xFF]`, four steps,
state 3. -/
theorem increments_then_halt_witness :
    3 ≤ 65023 ∧
    ∃ s0 s, createMachine (fun _ => 0) [0x0C, 0x0C, 0x0C, 0xFF] 4 = some s0 ∧
      stepN 4 s0 = some s ∧
      getMachineState s = 3 ∧ s.running = false ∧ s.PC = 515 :=
  ⟨by decide, increments_then_halt (fun _ => 0) 3 (by decide)⟩

/-- C13: for every byte `v`, the machine created from `[0x07, v, 0xFF]` and
stepped twice is halted with `getMachineState() = v` and `PC = 514`, whatever
the fresh block held. -/
theorem load_immediate_then_halt (fresh : Memory) (v : Nat) (hv : v < 256) :
    ∃ s0 s, createMachine fresh [0x07, v, 0xFF] [0x07, v, 0xFF].length = some s0 ∧
      stepN 2 s0 = some s ∧
      getMachineState s = v ∧ getMachineState s < 256 ∧ s.running = false ∧ s.PC = 514 := by
  obtain ⟨m, hcreate, hprog, -⟩ := createMachine_spec fresh [0x07, v, 0xFF] (by simp)
  have h0 : m 512 = 0x07 := (Option.some.inj (hprog 0 (by simp))).symm
  have h1 : m 513 = v := (Option.some.inj (hprog 1 (by simp))).symm
  have h2 : m 514 = 0xFF := (Option.some.inj (hprog 2 (by simp))).symm
  have hs1 : step (Machine.mk m 512 0 0 true) = some (Machine.mk m 514 v 0 true) := by
    rw [step_running _ rfl (by simp [memSize])]
    show decodeInstruction _ (m 512) = _
    rw [h0]
    have e : toUInt16 514 = 514 := rfl
    simp [decodeInstruction, load_eq, getMemoryAddress_immediate, advance, h1, e]
  have hs2 : step (Machine.mk m 514 v 0 true) = some (Machine.mk m 514 v 0 false) := by
    rw [step_running _ rfl (by simp [memSize])]
    show decodeInstruction _ (m 514) = _
    rw [h2]
    simp [decodeInstruction, halt]
  refine ⟨_, Machine.mk m 514 v 0 false, hcreate, ?_, rfl, hv, rfl, rfl⟩
  simp only [stepN, hs1, hs2]

/-- C13 at `v = 5`. -/
theorem load_immediate_then_halt_witness :
    5 < 256 ∧
    ∃ s0 s, createMachine (fun _ => 0) [0x07, 5, 0xFF] 3 = some s0 ∧
      stepN 2 s0 = some s ∧
      getMachineState s = 5 ∧ getMachineState s < 256 ∧ s.running = false ∧ s.PC = 514 :=
  ⟨by decide, load_immediate_then_halt (fun _ => 0) 5 (by decide)⟩

/-- C15: for every program `P` of length at most 65024, `createMachine(P, len P)`
returns a machine with `PC = 512`, flags 0, accumulator 0 (so
`getMachineState()` is 0) and `running = true`.  The function reads none of
the five globals, so an earlier machine has no influence. -/
theorem createMachine_resets_registers (fresh : Memory) (P : List Nat)
    (hL : P.length ≤ 65024) :
    ∃ s, createMachine fresh P P.length = some s ∧
      s.PC = 512 ∧ s.flags = 0 ∧ s.machineState = 0 ∧ getMachineState s = 0 ∧
      s.running = true := by
  obtain ⟨m, hcreate, -, -⟩ := createMachine_spec fresh P hL
  exact ⟨_, hcreate, rfl, rfl, rfl, rfl, rfl⟩

/-- C15 at the program `[0x0C, 0xFF]` and a block full of `0xAA`. -/
theorem createMachine_resets_registers_witness :
    [0x0C, 0xFF].length ≤ 65024 ∧
    ∃ s, createMachine (fun _ => 0xAA) [0x0C, 0xFF] [0x0C, 0xFF].length = some s ∧
      s.PC = 512 ∧ s.flags = 0 ∧ s.machineState = 0 ∧ getMachineState s = 0 ∧
      s.running = true :=
  ⟨by decide, createMachine_resets_registers (fun _ => 0xAA) [0x0C, 0xFF] (by decide)⟩

/-- C16 as stated fails: `createMachine` does not clear the block it gets
from `malloc`.  With a block full of `0xAA` and the program `[0x0C, 0xFF]`,
the bytes at 0, 511, 514 and 65535, all outside the loaded extent, read
`0xAA`. -/
theorem createMachine_not_zero_filled :
    [0x0C, 0xFF].length ≤ 65024 ∧
    ∃ s, createMachine (fun _ => 0xAA) [0x0C, 0xFF] [0x0C, 0xFF].length = some s ∧
      readMem s.memory 0 = some 0xAA ∧ readMem s.memory 511 = some 0xAA ∧
      readMem s.memory (512 + [0x0C, 0xFF].length) = some 0xAA ∧
      readMem s.memory 65535 = some 0xAA ∧
      ¬ (∀ j, (j < 512 ∨ (512 + [0x0C, 0xFF].length ≤ j ∧ j ≤ 65535)) → s.memory j = 0) := by
  refine ⟨by decide, _, rfl, rfl, rfl, rfl, rfl, ?_⟩
  intro h
  have := h 0 (Or.inl (by decide))
  revert this
  decide

/-- C16 (amended): for every program `P` of length at most 65024, after
`createMachine(P, len P)` every byte outside the loaded extent (index below
512, or from `512 + len P` up to 65535) is the byte the freshly allocated
block held there; it reads zero exactly where the block was zero, so on a
zeroed block all of them read zero. -/
theorem createMachine_outside_extent (fresh : Memory) (P : List Nat)
    (hL : P.length ≤ 65024) :
    ∃ s, createMachine fresh P P.length = some s ∧
      (∀ j, (j < 512 ∨ (512 + P.length ≤ j ∧ j ≤ 65535)) →
        readMem s.memory j = some (fresh j)) ∧
      ((∀ j, fresh j = 0) →
        ∀ j, (j < 512 ∨ (512 + P.length ≤ j ∧ j ≤ 65535)) → readMem s.memory j = some 0) := by
  obtain ⟨m, hcreate, -, hframe⟩ := createMachine_spec fresh P hL
  have key : ∀ j, (j < 512 ∨ (512 + P.length ≤ j ∧ j ≤ 65535)) →
      readMem m j = some (fresh j) := by
    intro j hj
    have hlt : j < memSize := by simp only [memSize]; omega
    rw [readMem_of_lt _ _ hlt, hframe j (by omega)]
  refine ⟨_, hcreate, key, fun hz j hj => ?_⟩
  rw [key j hj, hz j]

/-- C16 (amended) at the program `[0x0C, 0xFF]` and a zeroed block. -/
theorem createMachine_outside_extent_witness :
    [0x0C, 0xFF].length ≤ 65024 ∧
    ∃ s, createMachine (fun _ => 0) [0x0C, 0xFF] [0x0C, 0xFF].length = some s ∧
      (∀ j, (j < 512 ∨ (512 + [0x0C, 0xFF].length ≤ j ∧ j ≤ 65535)) →
        readMem s.memory j = some 0) :=
  match createMachine_outside_extent (fun _ => 0) [0x0C, 0xFF] (by decide) with
  | ⟨s, hs, h, _⟩ => ⟨by decide, s, hs, h⟩

/-! ## Erase and store -/

theorem step_erase_absolute_eq (s : Machine) (hwf : WF s) (hrun : s.running = true)
    (hpc : s.PC ≤ 65533) (hop : s.memory s.PC = 0x04) :
    step s = some { s with
      memory := fun j =>
        if j = s.memory (s.PC + 1) + 256 * s.memory (s.PC + 2) then 0 else s.memory j,
      PC := (s.PC + 3) % 65536 } := by
  have h2 : s.PC + 2 < memSize := by simp only [memSize]; omega
  have h1 : s.PC + 1 < memSize := by simp only [memSize]; omega
  have hga := getMemoryAddress_absolute s h2 (hwf.2.2.2 _ h1) (hwf.2.2.2 _ h2)
  rw [step_running s hrun hwf.1, hop]
  have e : toUInt16 ((s.PC : Int) + 3) = (s.PC + 3) % 65536 := by
    simp only [toUInt16]; omega
  simp [decodeInstruction, erase_eq, hga, advance, e]

/-- C14 as stated fails at `PC = 65533`: ERASE Absolute there is defined (its
operand bytes are the last two of the image) and the `uint16_t` counter wraps
to 0, which is not `PC + 3 = 65536`. -/
theorem step_erase_absolute_wraps :
    WF (machineOf [(65533, 0x04), (65534, 0x00), (65535, 0x02)] 65533 0 0 true) ∧
    (machineOf [(65533, 0x04), (65534, 0x00), (65535, 0x02)] 65533 0 0 true).running = true ∧
    (machineOf [(65533, 0x04), (65534, 0x00), (65535, 0x02)] 65533 0 0 true).PC ≤ 65533 ∧
    (machineOf [(65533, 0x04), (65534, 0x00), (65535, 0x02)] 65533 0 0 true).memory 65533
      = 0x04 ∧
    ∃ s', step (machineOf [(65533, 0x04), (65534, 0x00), (65535, 0x02)] 65533 0 0 true)
        = some s' ∧
      s'.PC = 0 ∧
      s'.PC ≠ (machineOf [(65533, 0x04), (65534, 0x00), (65535, 0x02)] 65533 0 0 true).PC + 3 :=
  ⟨machineOf_WF _ _ _ _ _ (by decide) (by decide) (by decide) (by decide),
    rfl, by decide, rfl, _, rfl, rfl, by decide⟩

/-- C14 (amended): for a running machine with `PC ≤ 65533` and opcode `0x04`,
whatever the operand address `a = memory[PC+1] + 256 * memory[PC+2]` is (the
instruction's own bytes included), after the step `memory[a] = 0`, every
other byte is unchanged, accumulator, flags and `running` are unchanged, and
`PC` is `(PC + 3) mod 65536`: `PC + 3` for `PC ≤ 65532` and 0 for
`PC = 65533`. -/
theorem step_erase_absolute (s : Machine) (hwf : WF s) (hrun : s.running = true)
    (hpc : s.PC ≤ 65533) (hop : s.memory s.PC = 0x04) :
    ∃ s', step s = some s' ∧
      s'.memory (s.memory (s.PC + 1) + 256 * s.memory (s.PC + 2)) = 0 ∧
      (∀ j, j ≠ s.memory (s.PC + 1) + 256 * s.memory (s.PC + 2) →
        s'.memory j = s.memory j) ∧
      s'.PC = (s.PC + 3) % 65536 ∧
      (s.PC ≤ 65532 → s'.PC = s.PC + 3) ∧ (s.PC = 65533 → s'.PC = 0) ∧
      s'.machineState = s.machineState ∧ s'.flags = s.flags ∧ s'.running = s.running := by
  refine ⟨_, step_erase_absolute_eq s hwf hrun hpc hop, ?_, ?_, rfl, ?_, ?_, rfl, rfl, rfl⟩
  · simp
  · intro j hj
    simp [hj]
  · intro h
    exact Nat.mod_eq_of_lt (by omega)
  · intro h
    show (s.PC + 3) % 65536 = 0
    rw [h]

/-- C14 (amended) at the program `[0x04, 0x00, 0x02]` at 512, which erases its
own opcode byte. -/
theorem step_erase_absolute_witness :
    WF (machineOf [(512, 0x04), (513, 0x00), (514, 0x02)] 512 0 0 true) ∧
    (machineOf [(512, 0x04), (513, 0x00), (514, 0x02)] 512 0 0 true).running = true ∧
    (machineOf [(512, 0x04), (513, 0x00), (514, 0x02)] 512 0 0 true).PC ≤ 65533 ∧
    ∃ s', step (machineOf [(512, 0x04), (513, 0x00), (514, 0x02)] 512 0 0 true) = some s' ∧
      s'.memory 512 = 0 ∧ s'.PC = 515 :=
  have hwf : WF (machineOf [(512, 0x04), (513, 0x00), (514, 0x02)] 512 0 0 true) :=
    machineOf_WF _ _ _ _ _ (by decide) (by decide) (by decide) (by decide)
  match step_erase_absolute _ hwf rfl (by decide) rfl with
  | ⟨s', hs', hz, _, hpc, _⟩ => ⟨hwf, rfl, by decide, s', hs', hz, hpc⟩

/-! ## What a step leaves alone -/

theorem compare_result_mask (s : Machine) (hf : s.flags < 256) (c : Prop) [Decidable c] :
    (if c then { s with flags := (s.flags ||| 1) % 256 }
      else { s with flags := (s.flags &&& 254) % 256 }).flags &&& 0xFE = s.flags &&& 0xFE := by
  split
  · show ((s.flags ||| 1) % 256) &&& 254 = _
    rw [Nat.mod_eq_of_lt (or_one_lt _ hf)]; exact or_one_and_mask _
  · show ((s.flags &&& 254) % 256) &&& 254 = _
    rw [Nat.mod_eq_of_lt (and_mask_lt _ hf)]; exact and_mask_and_mask _

/-- The components an opcode cannot touch. -/
theorem decodeInstruction_frame (s s' : Machine) (inst : Nat)
    (h : decodeInstruction s inst = some s') :
    (inst ≠ 0x07 → inst ≠ 0x08 → inst ≠ 0x09 → inst ≠ 0x0C → inst ≠ 0x0D →
      s'.machineState = s.machineState) ∧
    (inst ≠ 0x0E → inst ≠ 0x0F → inst ≠ 0x10 → s'.flags = s.flags) ∧
    (s.flags < 256 → s'.flags &&& 0xFE = s.flags &&& 0xFE) ∧
    (inst ≠ 0x03 → inst ≠ 0x04 → inst ≠ 0x0A → inst ≠ 0x0B → s'.memory = s.memory) := by
  rcases Nat.lt_or_ge inst 0x13 with hlt | hge
  · interval_cases inst <;>
      simp only [decodeInstruction, erase_eq, store_eq, load_eq, compare_eq, jump_eq,
        branchIfEqual_immediate, branchIfNotEqual_immediate] at h <;>
      simp at h
    all_goals
      first
      | subst h
      | (obtain ⟨a, -, h⟩ := h; subst h)
    all_goals
      refine ⟨?_, ?_, ?_, ?_⟩ <;> intros
    all_goals
      first
      | rfl
      | contradiction
      | (split <;> rfl)
      | (simp only [advance]; split; done)
      | (simp only [advance]; exact compare_result_mask s (by assumption) _)
  · by_cases hff : inst = 0xFF
    · subst hff
      simp [decodeInstruction, halt] at h
      subst h
      exact ⟨fun _ _ _ _ _ => rfl, fun _ _ _ => rfl, fun _ => rfl, fun _ _ _ _ => rfl⟩
    · rw [decodeInstruction_unknown s inst (Or.inr ⟨hge, hff⟩)] at h
      cases h
      exact ⟨fun _ _ _ _ _ => rfl, fun _ _ _ => rfl, fun _ => rfl, fun _ _ _ _ => rfl⟩

/-- The one byte ERASE and STORE write. -/
theorem decodeInstruction_write (s s' : Machine) (inst : Nat)
    (h : decodeInstruction s inst = some s') :
    (inst = 0x03 → ∃ a, getMemoryAddress s .Relative = some a ∧
      s'.memory = fun j => if j = a then 0 else s.memory j) ∧
    (inst = 0x04 → ∃ a, getMemoryAddress s .Absolute = some a ∧
      s'.memory = fun j => if j = a then 0 else s.memory j) ∧
    (inst = 0x0A → ∃ a, getMemoryAddress s .Relative = some a ∧
      s'.memory = fun j => if j = a then s.machineState else s.memory j) ∧
    (inst = 0x0B → ∃ a, getMemoryAddress s .Absolute = some a ∧
      s'.memory = fun j => if j = a then s.machineState else s.memory j) := by
  refine ⟨?_, ?_, ?_, ?_⟩ <;> intro hi <;> subst hi <;>
    simp only [decodeInstruction, erase_eq, store_eq] at h <;> simp at h <;>
    obtain ⟨a, ha, h⟩ := h <;> subst h <;> exact ⟨a, ha, rfl⟩

/-- A step performed on a state yields that state when halted and the decoded
instruction when running. -/
theorem step_some_cases (s s' : Machine) (h : step s = some s') :
    (s.running = false ∧ s' = s) ∨
    (s.running = true ∧ decodeInstruction s (s.memory s.PC) = some s') := by
  cases hrun : s.running with
  | false =>
    rw [step_halted s hrun] at h
    exact Or.inl ⟨rfl, (Option.some.inj h).symm⟩
  | true =>
    by_cases hpc : s.PC < memSize
    · rw [step_running s hrun hpc] at h
      exact Or.inr ⟨rfl, h⟩
    · simp [step, hrun, readMem, hpc] at h

/-- C17: whenever `step` yields a state, the accumulator is unchanged unless
the opcode at `PC` is `0x07, 0x08, 0x09, 0x0C` or `0x0D` (so STORE, `0x0A` and
`0x0B`, never changes it), the flag byte is unchanged unless the opcode is
`0x0E, 0x0F` or `0x10`, and bits 1..7 of the flag byte are unchanged for every
opcode.  With `PC ≤ 65533` the step always yields a state. -/
theorem step_register_frame (s : Machine) (hwf : WF s) :
    (∀ s', step s = some s' →
      ((s.memory s.PC ≠ 0x07 ∧ s.memory s.PC ≠ 0x08 ∧ s.memory s.PC ≠ 0x09 ∧
          s.memory s.PC ≠ 0x0C ∧ s.memory s.PC ≠ 0x0D) →
        s'.machineState = s.machineState) ∧
      ((s.memory s.PC = 0x0A ∨ s.memory s.PC = 0x0B) → s'.machineState = s.machineState) ∧
      ((s.memory s.PC ≠ 0x0E ∧ s.memory s.PC ≠ 0x0F ∧ s.memory s.PC ≠ 0x10) →
        s'.flags = s.flags) ∧
      s'.flags &&& 0xFE = s.flags &&& 0xFE) ∧
    (s.PC ≤ 65533 → ∃ s', step s = some s') := by
  refine ⟨fun s' h => ?_, step_defined s⟩
  rcases step_some_cases s s' h with ⟨-, rfl⟩ | ⟨-, hdec⟩
  · exact ⟨fun _ => rfl, fun _ => rfl, fun _ => rfl, rfl⟩
  · obtain ⟨hacc, hfl, hmask, -⟩ := decodeInstruction_frame s s' _ hdec
    refine ⟨fun hne => hacc hne.1 hne.2.1 hne.2.2.1 hne.2.2.2.1 hne.2.2.2.2, fun hst => ?_,
      fun hne => hfl hne.1 hne.2.1 hne.2.2, hmask hwf.2.2.1⟩
    rcases hst with hst | hst <;>
      exact hacc (by omega) (by omega) (by omega) (by omega) (by omega)

/-- C17 at STORE Absolute with accumulator 9 and flags `0xA5`: both registers
survive the step. -/
theorem step_register_frame_witness :
    WF (machineOf [(512, 0x0B), (513, 0x00), (514, 0x03)] 512 9 0xA5 true) ∧
    ∃ s', step (machineOf [(512, 0x0B), (513, 0x00), (514, 0x03)] 512 9 0xA5 true) = some s' ∧
      s'.machineState = 9 ∧ s'.flags = 0xA5 ∧ s'.memory 0x300 = 9 :=
  have hwf : WF (machineOf [(512, 0x0B), (513, 0x00), (514, 0x03)] 512 9 0xA5 true) :=
    machineOf_WF _ _ _ _ _ (by decide) (by decide) (by decide) (by decide)
  ⟨hwf, _, rfl,
    ((step_register_frame _ hwf).1 _ rfl).2.1 (Or.inr rfl),
    ((step_register_frame _ hwf).1 _ rfl).2.2.1 (by decide), rfl⟩

/-- C20: whenever `step` yields a state, the image is unchanged unless the
opcode at `PC` is `0x03, 0x04, 0x0A` or `0x0B`; on a running machine with one
of these the new image is the old one with the byte at the instruction's
operand address set to 0 (ERASE) or to the accumulator (STORE); in every case
at most one index holds a different byte afterwards.  With `PC ≤ 65533` the
step always yields a state. -/
theorem step_memory_frame (s : Machine) (hwf : WF s) :
    (∀ s', step s = some s' →
      ((s.memory s.PC ≠ 0x03 ∧ s.memory s.PC ≠ 0x04 ∧ s.memory s.PC ≠ 0x0A ∧
          s.memory s.PC ≠ 0x0B) → s'.memory = s.memory) ∧
      (s.running = false → s'.memory = s.memory) ∧
      (s.running = true → s.memory s.PC = 0x03 →
        ∃ a, getMemoryAddress s .Relative = some a ∧ a < memSize ∧
          s'.memory = fun j => if j = a then 0 else s.memory j) ∧
      (s.running = true → s.memory s.PC = 0x04 →
        ∃ a, getMemoryAddress s .Absolute = some a ∧ a < memSize ∧
          s'.memory = fun j => if j = a then 0 else s.memory j) ∧
      (s.running = true → s.memory s.PC = 0x0A →
        ∃ a, getMemoryAddress s .Relative = some a ∧ a < memSize ∧
          s'.memory = fun j => if j = a then s.machineState else s.memory j) ∧
      (s.running = true → s.memory s.PC = 0x0B →
        ∃ a, getMemoryAddress s .Absolute = some a ∧ a < memSize ∧
          s'.memory = fun j => if j = a then s.machineState else s.memory j) ∧
      (∀ i j, s'.memory i ≠ s.memory i → s'.memory j ≠ s.memory j → i = j)) ∧
    (s.PC ≤ 65533 → ∃ s', step s = some s') := by
  refine ⟨fun s' h => ?_, step_defined s⟩
  have one : ∀ (a v : Nat), (s'.memory = fun j => if j = a then v else s.memory j) →
      ∀ i j, s'.memory i ≠ s.memory i → s'.memory j ≠ s.memory j → i = j := by
    intro a v hm i j hi hj
    rw [hm] at hi hj
    have hia : i = a := by
      by_contra hne
      exact hi (by simp [hne])
    have hja : j = a := by
      by_contra hne
      exact hj (by simp [hne])
    rw [hia, hja]
  rcases step_some_cases s s' h with ⟨hrun, rfl⟩ | ⟨hrun, hdec⟩
  · refine ⟨fun _ => rfl, fun _ => rfl, ?_, ?_, ?_, ?_, fun i j hi _ => absurd rfl hi⟩ <;>
      intro hr <;> rw [hrun] at hr <;> exact absurd hr (by decide)
  · obtain ⟨-, -, -, hmem⟩ := decodeInstruction_frame s s' _ hdec
    obtain ⟨w3, w4, wA, wB⟩ := decodeInstruction_write s s' _ hdec
    have lift : ∀ (mode : addressingMode) (v : Nat),
        (∃ a, getMemoryAddress s mode = some a ∧
          s'.memory = fun j => if j = a then v else s.memory j) →
        ∃ a, getMemoryAddress s mode = some a ∧ a < memSize ∧
          s'.memory = fun j => if j = a then v else s.memory j :=
      fun mode v ⟨a, ha, hm⟩ => ⟨a, ha, getMemoryAddress_lt s mode a ha, hm⟩
    refine ⟨fun hne => hmem hne.1 hne.2.1 hne.2.2.1 hne.2.2.2,
      fun hr => absurd (hrun.symm.trans hr) (by decide),
      fun _ h3 => lift _ _ (w3 h3), fun _ h4 => lift _ _ (w4 h4),
      fun _ hA => lift _ _ (wA hA), fun _ hB => lift _ _ (wB hB), ?_⟩
    by_cases h3 : s.memory s.PC = 0x03
    · obtain ⟨a, -, hm⟩ := w3 h3
      exact one a _ hm
    by_cases h4 : s.memory s.PC = 0x04
    · obtain ⟨a, -, hm⟩ := w4 h4
      exact one a _ hm
    by_cases hA : s.memory s.PC = 0x0A
    · obtain ⟨a, -, hm⟩ := wA hA
      exact one a _ hm
    by_cases hB : s.memory s.PC = 0x0B
    · obtain ⟨a, -, hm⟩ := wB hB
      exact one a _ hm
    · intro i j hi _
      rw [hmem h3 h4 hA hB] at hi
      exact absurd rfl hi

/-- C20 at STORE Absolute to `0x0300` with accumulator 9: that byte becomes 9
and the image is otherwise the old one. -/
theorem step_memory_frame_witness :
    WF (machineOf [(512, 0x0B), (513, 0x00), (514, 0x03)] 512 9 0xA5 true) ∧
    ∃ s', step (machineOf [(512, 0x0B), (513, 0x00), (514, 0x03)] 512 9 0xA5 true) = some s' ∧
      ∃ a, getMemoryAddress (machineOf [(512, 0x0B), (513, 0x00), (514, 0x03)] 512 9 0xA5 true)
          .Absolute = some a ∧ a < memSize ∧
        s'.memory = fun j => if j = a then 9 else memOf [(512, 0x0B), (513, 0x00), (514, 0x03)] j :=
  have hwf : WF (machineOf [(512, 0x0B), (513, 0x00), (514, 0x03)] 512 9 0xA5 true) :=
    machineOf_WF _ _ _ _ _ (by decide) (by decide) (by decide) (by decide)
  ⟨hwf, _, rfl, ((step_memory_frame _ hwf).1 _ rfl).2.2.2.2.2.1 rfl rfl⟩

/-! ## The driver and the bounds of the image -/

/-- The copy loop runs out of the block when its last index is past the end:
some iteration then performs a write outside `0..65535` (or, earlier, a read
outside `data`). -/
theorem createLoop_overrun (data : List Nat) :
    ∀ (n i : Nat) (m : Memory), 512 + i ≤ memSize → memSize < 512 + i + n →
      createLoop data n i m = none := by
  intro n
  induction n with
  | zero =>
    intro i m h1 h2
    omega
  | succ n ih =>
    intro i m h1 h2
    simp only [createLoop]
    cases hd : data[i]? with
    | none => rfl
    | some b =>
      by_cases hw : 512 + i < memSize
      · simp only [writeMem, if_pos hw]
        exact ih (i + 1) _ (by omega) (by omega)
      · simp only [writeMem, if_neg hw]

/-- C18: the driver at a file of 65025 bytes.  The check `filelen > 65536` lets
it through, the length passed to `createMachine` is 65025, above 65024, and
the copy then leaves the image: the iteration `i = 65024` writes index
`512 + 65024 = 65536`, so `createMachine` has no defined result.  Only
lengths above 65536 are rejected, and 65536 itself is passed as 0. -/
theorem mainLength_accepts_overrun :
    mainLength 65025 = some 65025 ∧ ¬ (65025 ≤ 65024) ∧
    (∀ (m : Memory) (b : Nat), writeMem m (512 + 65024) b = none) ∧
    (∀ (fresh : Memory) (data : List Nat), createMachine fresh data 65025 = none) ∧
    mainLength 65537 = none ∧ mainLength 65536 = some 0 := by
  refine ⟨rfl, by decide, fun m b => rfl, fun fresh data => ?_, rfl, rfl⟩
  simp only [createMachine,
    createLoop_overrun data 65025 0 fresh (by simp [memSize]) (by simp [memSize])]

/-- With `PC ≤ 65533` every opcode is defined. -/
theorem decodeInstruction_defined (s : Machine) (hpc : s.PC ≤ 65533) (inst : Nat) :
    ∃ s', decodeInstruction s inst = some s' := by
  obtain ⟨aI, hI⟩ := getMemoryAddress_defined s .Immediate (by simp) (by simp)
  obtain ⟨aR, hR⟩ := getMemoryAddress_defined s .Relative
    (fun _ => by simp only [memSize]; omega) (by simp)
  obtain ⟨aA, hA⟩ := getMemoryAddress_defined s .Absolute (by simp)
    (fun _ => by simp only [memSize]; omega)
  rcases Nat.lt_or_ge inst 0x13 with h | h
  · interval_cases inst <;>
      simp [decodeInstruction, erase_eq, store_eq, load_eq, compare_eq, jump_eq,
        branchIfEqual_immediate, branchIfNotEqual_immediate, hI, hR, hA]
  · by_cases hff : inst = 0xFF
    · subst hff
      simp [decodeInstruction]
    · exact ⟨s, decodeInstruction_unknown s inst (Or.inr ⟨h, hff⟩)⟩

/-- C19: for a machine with `PC ≤ 65533`, running or not, every index a step
can use is inside `0..65535`: the opcode fetch at `PC`, the operand fetches at
`PC + 1` and `PC + 2`, and in each addressing mode the operand address, which
can then be read and written.  So no access takes the out-of-range branch:
every opcode byte is defined and the step yields a state. -/
theorem step_memory_safe (s : Machine) (hpc : s.PC ≤ 65533) :
    readMem s.memory s.PC = some (s.memory s.PC) ∧
    readMem s.memory (s.PC + 1) = some (s.memory (s.PC + 1)) ∧
    readMem s.memory (s.PC + 2) = some (s.memory (s.PC + 2)) ∧
    (∀ mode, ∃ a, getMemoryAddress s mode = some a ∧ a ≤ 65535 ∧
      readMem s.memory a = some (s.memory a) ∧
      ∀ v, ∃ m, writeMem s.memory a v = some m) ∧
    (∀ inst, ∃ s', decodeInstruction s inst = some s') ∧
    ∃ s', step s = some s' := by
  have h0 : s.PC < memSize := by simp only [memSize]; omega
  have h1 : s.PC + 1 < memSize := by simp only [memSize]; omega
  have h2 : s.PC + 2 < memSize := by simp only [memSize]; omega
  refine ⟨readMem_of_lt _ _ h0, readMem_of_lt _ _ h1, readMem_of_lt _ _ h2, fun mode => ?_,
    decodeInstruction_defined s hpc, step_defined s hpc⟩
  obtain ⟨a, ha⟩ := getMemoryAddress_defined s mode (fun _ => h1) (fun _ => h2)
  have hlt := getMemoryAddress_lt s mode a ha
  refine ⟨a, ha, ?_, readMem_of_lt _ _ hlt, fun v => ⟨_, writeMem_of_lt _ _ v hlt⟩⟩
  simp only [memSize] at hlt
  omega

/-- C19 at STORE Absolute in the last position the claim covers, `PC = 65533`,
with the operand address `0xFFFF`. -/
theorem step_memory_safe_witness :
    (machineOf [(65533, 0x0B), (65534, 0xFF), (65535, 0xFF)] 65533 9 0 true).PC ≤ 65533 ∧
    getMemoryAddress (machineOf [(65533, 0x0B), (65534, 0xFF), (65535, 0xFF)] 65533 9 0 true)
      .Absolute = some 65535 ∧
    ∃ s', step (machineOf [(65533, 0x0B), (65534, 0xFF), (65535, 0xFF)] 65533 9 0 true)
      = some s' :=
  ⟨by decide, rfl, (step_memory_safe _ (by decide)).2.2.2.2.2⟩

end TouringMachine
